import Mathlib

/-!
Shallow embedding of the DepMap gene-analysis pipeline
(`gene_analysis.py`, `post_analysis_enrichment.py`).

Sample identifiers, gene names and column labels are `String`s; numeric
table entries are `Option ℚ` (with `none` standing for a missing value,
`NaN` in the source).  A data table ("DataFrame") is a column-label list
together with labelled rows.  The external statistics routines
(`scipy.stats.spearmanr`, `statsmodels.stats.multitest.multipletests`)
are modelled from their published algorithms; the per-gene statistic is
additionally kept abstract (a parameter `stat`) wherever a claim does
not depend on its value.

Rational arithmetic is written with the kernel-computable wrappers
`qadd`, `qmul`, `qdiv`, `qsum` (the library operations on `ℚ` are
deliberately irreducible); each wrapper is proved equal to the
corresponding standard operation below, so theorems may be read with
ordinary `+`, `*`, `/`.  Likewise string comparison and lowercasing are
written on the character lists (`lexLe`, `strToLower`), matching
Python's code-point-wise semantics.
-/

namespace DepMap

/-- Kernel-computable addition on ℚ, equal to `a + b` (`qadd_eq`). -/
def qadd (a b : ℚ) : ℚ := Rat.divInt (a.num * b.den + b.num * a.den) ((a.den : Int) * b.den)

/-- Kernel-computable multiplication on ℚ, equal to `a * b` (`qmul_eq`). -/
def qmul (a b : ℚ) : ℚ := Rat.divInt (a.num * b.num) ((a.den : Int) * b.den)

/-- Kernel-computable division on ℚ, equal to `a / b` (`qdiv_eq`). -/
def qdiv (a b : ℚ) : ℚ := Rat.divInt (a.num * b.den) ((a.den : Int) * b.num)

/-- Kernel-computable subtraction on ℚ, equal to `a - b` (`qsub_eq`). -/
def qsub (a b : ℚ) : ℚ := qadd a (-b)

/-- Kernel-computable list sum on ℚ, equal to `l.sum` (`qsum_eq`). -/
def qsum (l : List ℚ) : ℚ := l.foldr qadd 0

/-- Code-point-wise lexicographic order on character lists: the order
Python uses to compare strings. -/
def lexLe : List Char → List Char → Bool
  | [], _ => true
  | _ :: _, [] => false
  | a :: as, b :: bs => if a < b then true else if b < a then false else lexLe as bs

/-- String comparison as Python's `<=`. -/
def strLe (a b : String) : Bool := lexLe a.toList b.toList

/-- Character-wise lowercasing, as Python's `str.lower` on ASCII. -/
def strToLower (s : String) : String := ⟨s.toList.map Char.toLower⟩

/-- Deduplication keeping the first occurrence, as pandas `.unique()`;
`seen` accumulates the values already emitted. -/
def uniqAux (seen : List String) : List String → List String
  | [] => []
  | a :: t => if a ∈ seen then uniqAux seen t else a :: uniqAux (a :: seen) t

/-- First-occurrence deduplication of a list of identifiers. -/
def uniqueFirst (l : List String) : List String := uniqAux [] l

/-- A pandas-style table: ordered column labels plus labelled rows whose
value lists are aligned with `cols`. -/
structure Frame where
  cols : List String
  rows : List (String × List (Option ℚ))

/-- Value of a row at the column labelled `c` (first matching column, as
pandas label lookup on a duplicate-free index). -/
def colVal (cols : List String) (row : List (Option ℚ)) (c : String) : Option ℚ :=
  row.getD (List.indexOf c cols) none

/-- Row of a frame labelled `s` (first match, as after
`omics_expr[~omics_expr.index.duplicated(keep="first")]`). -/
def rowOf (f : Frame) (s : String) : List (Option ℚ) :=
  ((f.rows.find? (fun r => r.1 == s)).map Prod.snd).getD []

/-- Line 37 of `gene_analysis.py`: the fixed immune marker panel. -/
def immune_markers : List String :=
  ["CD274", "CXCL9", "CXCL10", "STAT1", "IRF1", "HLA-A", "HLA-B", "B2M", "TAP1", "TGFB1"]

/-- Line 38: columns whose name contains some marker as a substring
(Python `marker in col`, modelled as infix on the character lists). -/
def immune_genes (cols : List String) : List String :=
  cols.filter (fun col => immune_markers.any (fun m => decide (m.toList <:+: col.toList)))

/-- Mean that skips missing entries, as pandas `.mean` with the default
`skipna=True`; `none` when every entry is missing (pandas `NaN`). -/
def nanmean (vals : List (Option ℚ)) : Option ℚ :=
  let xs := vals.filterMap id
  if xs.length = 0 then none else some (qdiv (qsum xs) (xs.length : ℚ))

/-- Line 67: `omics_sub[immune_genes].mean(axis=1)` for one sample row. -/
def immune_proxy (cols : List String) (row : List (Option ℚ)) : Option ℚ :=
  nanmean ((immune_genes cols).map (fun c => colVal cols row c))

/-- Line 57: `ModelID`s of annotation rows whose disease label matches
`cancer` case-insensitively, deduplicated (`.unique()`). -/
def cancer_models (model : List (String × String)) (cancer : String) : List String :=
  uniqueFirst ((model.filter (fun row => strToLower row.2 == strToLower cancer)).map Prod.fst)

/-- Line 58: `sorted(set(crispr.columns) & set(omics.index) & set(cancer_models))`. -/
def common_models (crisprCols omicsIdx cancerModels : List String) : List String :=
  List.insertionSort (fun a b => strLe a b = true)
    (uniqueFirst (crisprCols.filter (fun c => decide (c ∈ omicsIdx) && decide (c ∈ cancerModels))))

/-- The cohort of one cancer type: intersection of fitness-matrix
columns, expression-matrix rows and matching annotation rows, sorted. -/
def cohortOf (crispr omics : Frame) (model : List (String × String)) (cancer : String) :
    List String :=
  common_models crispr.cols (omics.rows.map Prod.fst) (cancer_models model cancer)

/-- An association record before FDR attachment: line 77,
`results.append([gene, rho, p])`. -/
structure Assoc where
  gene : String
  r : ℚ
  p : ℚ
deriving DecidableEq

/-- An association record with the FDR-adjusted p-value attached
(line 84, `results_df["FDR"]`). -/
structure AssocF where
  gene : String
  r : ℚ
  p : ℚ
  fdr : ℚ
deriving DecidableEq

/-- Lines 71-73: pair the gene's fitness values with the proxy values
and drop positions where either is missing (`~isnan(x) & ~isnan(y)`). -/
def maskPairs (x y : List (Option ℚ)) : List (ℚ × ℚ) :=
  (x.zip y).filterMap (fun ab => ab.1.bind (fun a => ab.2.map (fun b => (a, b))))

/-- Lines 73-77: skip the gene when fewer than 5 paired observations
remain, otherwise record the statistic `stat` (scipy's `spearmanr`,
kept abstract) of the surviving pairs. -/
def geneResult (stat : List (ℚ × ℚ) → ℚ × ℚ) (g : String) (x y : List (Option ℚ)) :
    Option Assoc :=
  let pairs := maskPairs x y
  if pairs.length < 5 then none
  else some ⟨g, (stat pairs).1, (stat pairs).2⟩

/-- Lines 70-77: one record per gene row of the fitness matrix restricted
to the cohort columns, genes with too few paired observations skipped. -/
def geneResults (stat : List (ℚ × ℚ) → ℚ × ℚ) (crispr omics : Frame) (cm : List String) :
    List Assoc :=
  let proxy := cm.map (fun s => immune_proxy omics.cols (rowOf omics s))
  crispr.rows.filterMap
    (fun gr => geneResult stat gr.1 (cm.map (fun s => colVal crispr.cols gr.2 s)) proxy)

/-- Suffix minima of a list: position `k` holds the minimum of the
entries from `k` on.  This is `np.minimum.accumulate(xs[::-1])[::-1]`. -/
def suffixMin : List ℚ → List ℚ
  | [] => []
  | [a] => [a]
  | a :: b :: t => min a ((suffixMin (b :: t)).headD 0) :: suffixMin (b :: t)

/-- Argsort step of `multipletests(method="fdr_bh")`: the p-values tagged
with their original positions, sorted ascending by value. -/
def bhArgsorted (ps : List ℚ) : List (Nat × ℚ) :=
  List.insertionSort (fun u v => u.2 ≤ v.2)
    ((List.range ps.length).map (fun i => (i, ps.getD i 0)))

/-- Raw BH quotients on the sorted p-values: entry `k` is
`p_(k) * n / (k+1)` (`pvals_sorted / ecdffactor` in statsmodels). -/
def bhRaws (ps : List ℚ) : List ℚ :=
  List.zipWith (fun k pr => qdiv (qmul pr.2 (ps.length : ℚ)) ((k + 1 : ℕ) : ℚ))
    (List.range (bhArgsorted ps).length) (bhArgsorted ps)

/-- Adjusted values in sorted order: reversed cumulative minimum of the
raw quotients, clipped at 1. -/
def bhAdjSorted (ps : List ℚ) : List ℚ :=
  (suffixMin (bhRaws ps)).map (fun q => min q 1)

/-- Modelled from the published algorithm of
`statsmodels.stats.multitest.multipletests(pvals, method="fdr_bh")`
(an external library call on line 84): sort the p-values, divide by the
empirical-CDF factor, take the reversed cumulative minimum, clip at 1,
and scatter the results back to the original positions. -/
def multipletests_fdr_bh (ps : List ℚ) : List ℚ :=
  (List.range ps.length).map
    (fun i => (bhAdjSorted ps).getD (List.indexOf i ((bhArgsorted ps).map Prod.fst)) 0)

/-- Line 84: attach the adjusted p-value to each record, positionally. -/
def attachFDR (rs : List Assoc) : List AssocF :=
  List.zipWith (fun a q => ⟨a.gene, a.r, a.p, q⟩) rs (multipletests_fdr_bh (rs.map Assoc.p))

/-- Line 86: `results_df.sort_values("FDR")` (ascending). -/
def sortByFDR (rs : List AssocF) : List AssocF :=
  List.insertionSort (fun a b => a.fdr ≤ b.fdr) rs

/-- Line 107: `results_df.sort_values("Spearman_r", ascending=False)`. -/
def sortByCoefDesc (rs : List AssocF) : List AssocF :=
  List.insertionSort (fun a b => b.r ≤ a.r) rs

/-- Line 108: `results_df.sort_values("Spearman_r")` (ascending). -/
def sortByCoefAsc (rs : List AssocF) : List AssocF :=
  List.insertionSort (fun a b => a.r ≤ b.r) rs

/-- Lines 107, 112: gene names of the top 3 records by coefficient,
descending. -/
def topPosNames (rs : List AssocF) : List String :=
  ((sortByCoefDesc rs).take 3).map AssocF.gene

/-- Lines 108, 113: gene names of the top 3 records by coefficient,
ascending. -/
def topNegNames (rs : List AssocF) : List String :=
  ((sortByCoefAsc rs).take 3).map AssocF.gene

/-- One row of `Cancerwise_Summary.csv` (lines 109-114). -/
structure SummaryRow where
  cancer : String
  nModels : Nat
  topPositive : String
  topNegative : String
deriving DecidableEq

/-- Lines 64-114 after the cohort-size guard: compute the per-gene
records; when none survive, `continue` (no table, no summary row);
otherwise attach FDR, sort by FDR for persistence, and build the
summary row. -/
def processBody (stat : List (ℚ × ℚ) → ℚ × ℚ) (crispr omics : Frame) (cancer : String)
    (cm : List String) : Option (List AssocF × SummaryRow) :=
  let results := geneResults stat crispr omics cm
  if results.isEmpty then none
  else
    let sorted := sortByFDR (attachFDR results)
    some (sorted,
      ⟨cancer, cm.length,
        String.intercalate "; " (topPosNames sorted),
        String.intercalate "; " (topNegNames sorted)⟩)

/-- Lines 56-114, one iteration of the cancer loop: skip entirely when
the cohort has fewer than 25 identifiers, otherwise run the analysis. -/
def processCancer (stat : List (ℚ × ℚ) → ℚ × ℚ) (crispr omics : Frame)
    (model : List (String × String)) (cancer : String) :
    Option (List AssocF × SummaryRow) :=
  let cm := cohortOf crispr omics model cancer
  if cm.length < 25 then none else processBody stat crispr omics cancer cm

/-- Lines 53-114: the cancer loop processes each cancer type in turn,
independently. -/
def runPipeline (stat : List (ℚ × ℚ) → ℚ × ℚ) (crispr omics : Frame)
    (model : List (String × String)) (cancers : List String) :
    List (Option (List AssocF × SummaryRow)) :=
  cancers.map (processCancer stat crispr omics model)

/-- Modelled from the published algorithm of `scipy.stats.rankdata`
(default `method="average"`), used inside `spearmanr`: the rank of a
value is the count of strictly smaller entries plus half of one more
than the count of equal entries. -/
def rankdata (l : List ℚ) : List ℚ :=
  l.map (fun v =>
    qadd (l.countP (fun w => decide (w < v)) : ℚ)
      (qdiv ((l.countP (fun w => decide (w = v)) + 1 : ℕ) : ℚ) 2))

/-- Centred dot product of two equal-length lists, the building block of
a Pearson correlation. -/
def centeredDot (a b : List ℚ) : ℚ :=
  let am := qdiv (qsum a) (a.length : ℚ)
  let bm := qdiv (qsum b) (b.length : ℚ)
  qsum ((a.zip b).map (fun pq => qmul (qsub pq.1 am) (qsub pq.2 bm)))

/-- Mixed centred moment of the two rank vectors: the numerator of
scipy's `spearmanr` coefficient (Pearson correlation of the ranks). -/
def spearman_Sxy (x y : List ℚ) : ℚ := centeredDot (rankdata x) (rankdata y)

/-- Centred second moment of a rank vector: one factor under the square
root in the denominator of the `spearmanr` coefficient. -/
def spearman_Sxx (x : List ℚ) : ℚ := centeredDot (rankdata x) (rankdata x)

/-- The `spearmanr` coefficient is `Sxy / √(Sxx·Syy)`; since the square
root leaves ℚ, the statement `ρ = -1` is rendered by its exact
rational characterisation: negative numerator and squared
Cauchy-Schwarz equality. -/
def spearman_rho_eq_negOne (x y : List ℚ) : Prop :=
  spearman_Sxy x y < 0 ∧
    qmul (spearman_Sxy x y) (spearman_Sxy x y) = qmul (spearman_Sxx x) (spearman_Sxx y)

instance (x y : List ℚ) : Decidable (spearman_rho_eq_negOne x y) := by
  unfold spearman_rho_eq_negOne; infer_instance

/-- Modelled from the spec: the two-sided p-value of `spearmanr` (an
external scipy computation via the t distribution, with
`t = ρ·√((n-2)/(1-ρ²))`) is not representable in ℚ in general; the
degenerate case is exact: when `ρ² = 1` the statistic is infinite and
the p-value is 0.  Only that case is modelled; `none` elsewhere. -/
def spearman_pval_degenerate (x y : List ℚ) : Option ℚ :=
  if qmul (spearman_Sxy x y) (spearman_Sxy x y) = qmul (spearman_Sxx x) (spearman_Sxx y)
  then some 0 else none

/-- Lines 90-94 of `post_analysis_enrichment.py`: Jaccard similarity of
two gene lists, with a guard returning 0 when both sets are empty. -/
def jaccard (a b : List String) : ℚ :=
  if a.toFinset = ∅ ∧ b.toFinset = ∅ then 0
  else qdiv ((a.toFinset ∩ b.toFinset).card : ℚ) ((a.toFinset ∪ b.toFinset).card : ℚ)

/-! ### The computable wrappers agree with the standard operations -/

theorem num_eq_mul_den (a : ℚ) : (a.num : ℚ) = a * (a.den : ℚ) := by
  have h := Rat.num_div_den a
  rwa [div_eq_iff (by exact_mod_cast a.den_ne_zero)] at h

theorem qmul_eq (a b : ℚ) : qmul a b = a * b := by
  rw [qmul, Rat.divInt_eq_div]
  push_cast
  rw [num_eq_mul_den a, num_eq_mul_den b]
  rw [div_eq_iff (by positivity)]
  ring

theorem qadd_eq (a b : ℚ) : qadd a b = a + b := by
  rw [qadd, Rat.divInt_eq_div]
  push_cast
  rw [num_eq_mul_den a, num_eq_mul_den b]
  rw [div_eq_iff (by positivity)]
  ring

theorem qsub_eq (a b : ℚ) : qsub a b = a - b := by
  rw [qsub, qadd_eq]; ring

theorem qdiv_eq (a b : ℚ) : qdiv a b = a / b := by
  rcases eq_or_ne b 0 with hb | hb
  · subst hb; rw [qdiv]; norm_num
  · rw [qdiv, Rat.divInt_eq_div]
    push_cast
    have hbnum : (b.num : ℚ) ≠ 0 := by
      exact_mod_cast Rat.num_ne_zero.mpr hb
    have hden : ((a.den : ℚ) * (b.num : ℚ)) ≠ 0 :=
      mul_ne_zero (by exact_mod_cast a.den_ne_zero) hbnum
    rw [div_eq_div_iff hden hb, num_eq_mul_den a, num_eq_mul_den b]
    ring

theorem qsum_eq (l : List ℚ) : qsum l = l.sum := by
  induction l with
  | nil => rfl
  | cons a t ih => rw [qsum, List.foldr_cons, qadd_eq, List.sum_cons]; rw [qsum] at ih; rw [ih]

/-! ### The string order used by the cohort sort -/

theorem lexLe_total : ∀ (a b : List Char), lexLe a b = true ∨ lexLe b a = true
  | [], _ => Or.inl rfl
  | _ :: _, [] => Or.inr rfl
  | a :: as, b :: bs => by
    rcases lt_trichotomy a b with h | h | h
    · left; simp [lexLe, h]
    · subst h
      rcases lexLe_total as bs with ih | ih
      · left; simp [lexLe, lt_irrefl, ih]
      · right; simp [lexLe, lt_irrefl, ih]
    · right; simp [lexLe, h]

theorem lexLe_trans : ∀ {a b c : List Char},
    lexLe a b = true → lexLe b c = true → lexLe a c = true
  | [], _, _, _, _ => rfl
  | _ :: _, [], _, h, _ => by simp [lexLe] at h
  | _ :: _, _ :: _, [], _, h => by simp [lexLe] at h
  | a :: as, b :: bs, c :: cs, h1, h2 => by
    rcases lt_trichotomy a b with hab | hab | hab
    · rcases lt_trichotomy b c with hbc | hbc | hbc
      · simp [lexLe, lt_trans hab hbc]
      · subst hbc; simp [lexLe, hab]
      · exfalso; simp [lexLe, asymm hbc, hbc] at h2
    · subst hab
      rcases lt_trichotomy a c with hbc | hbc | hbc
      · simp [lexLe, hbc]
      · subst hbc
        simp only [lexLe, lt_irrefl, if_false] at h1 h2 ⊢
        exact lexLe_trans h1 h2
      · exfalso; simp [lexLe, asymm hbc, hbc] at h2
    · exfalso; simp [lexLe, asymm hab, hab] at h1

theorem lexLe_antisymm : ∀ {a b : List Char},
    lexLe a b = true → lexLe b a = true → a = b
  | [], [], _, _ => rfl
  | [], _ :: _, _, h => by simp [lexLe] at h
  | _ :: _, [], h, _ => by simp [lexLe] at h
  | a :: as, b :: bs, h1, h2 => by
    rcases lt_trichotomy a b with hab | hab | hab
    · exfalso; simp [lexLe, asymm hab, hab] at h2
    · subst hab
      simp only [lexLe, lt_irrefl, if_false] at h1 h2
      rw [lexLe_antisymm h1 h2]
    · exfalso; simp [lexLe, asymm hab, hab] at h1

instance : IsTotal String (fun a b => strLe a b = true) :=
  ⟨fun a b => lexLe_total a.toList b.toList⟩

instance : IsTrans String (fun a b => strLe a b = true) :=
  ⟨fun _ _ _ h1 h2 => lexLe_trans h1 h2⟩

instance : IsAntisymm String (fun a b => strLe a b = true) :=
  ⟨fun a b h1 h2 => by
    have h := lexLe_antisymm (a := a.toList) (b := b.toList) h1 h2
    cases a; cases b
    exact congrArg String.mk (by simpa [String.toList] using h)⟩

/-! ### First-occurrence deduplication -/

theorem mem_uniqAux : ∀ (seen l : List String) (x : String),
    x ∈ uniqAux seen l ↔ x ∈ l ∧ x ∉ seen
  | seen, [], x => by simp [uniqAux]
  | seen, a :: t, x => by
    by_cases h : a ∈ seen
    · rw [uniqAux, if_pos h, mem_uniqAux]
      constructor
      · rintro ⟨hx, hs⟩; exact ⟨List.mem_cons_of_mem a hx, hs⟩
      · rintro ⟨hx, hs⟩
        rcases List.mem_cons.mp hx with rfl | hx
        · exact absurd h hs
        · exact ⟨hx, hs⟩
    · rw [uniqAux, if_neg h]
      constructor
      · intro hx
        rcases List.mem_cons.mp hx with rfl | hx
        · exact ⟨List.mem_cons_self x t, h⟩
        · rw [mem_uniqAux] at hx
          refine ⟨List.mem_cons_of_mem a hx.1, fun hs => hx.2 (List.mem_cons_of_mem a hs)⟩
      · rintro ⟨hx, hs⟩
        rcases List.mem_cons.mp hx with rfl | hx
        · exact List.mem_cons_self x _
        · by_cases hxa : x = a
          · subst hxa; exact List.mem_cons_self x _
          · refine List.mem_cons_of_mem a ?_
            rw [mem_uniqAux]
            refine ⟨hx, fun hsx => ?_⟩
            rcases List.mem_cons.mp hsx with rfl | hsx
            · exact hxa rfl
            · exact hs hsx

theorem nodup_uniqAux : ∀ (seen l : List String), (uniqAux seen l).Nodup
  | _, [] => List.nodup_nil
  | seen, a :: t => by
    by_cases h : a ∈ seen
    · rw [uniqAux, if_pos h]; exact nodup_uniqAux seen t
    · rw [uniqAux, if_neg h]
      refine List.nodup_cons.mpr ⟨fun ha => ?_, nodup_uniqAux (a :: seen) t⟩
      rw [mem_uniqAux] at ha
      exact ha.2 (List.mem_cons_self a seen)

theorem mem_uniqueFirst (l : List String) (x : String) : x ∈ uniqueFirst l ↔ x ∈ l := by
  rw [uniqueFirst, mem_uniqAux]; simp

theorem nodup_uniqueFirst (l : List String) : (uniqueFirst l).Nodup := nodup_uniqAux [] l

/-! ### Claim C9 -/

/-- C9: `jaccard` is total and never divides by zero: when both input
lists are empty the guard returns 0, otherwise the denominator (the
cardinality of the set union) is positive; and `jaccard` is
symmetric. -/
theorem C9_jaccard_total_symmetric (a b : List String) :
    jaccard a b = jaccard b a ∧
      ((a = [] ∧ b = []) → jaccard a b = 0) ∧
      (¬(a.toFinset = ∅ ∧ b.toFinset = ∅) → 0 < (a.toFinset ∪ b.toFinset).card) := by
  refine ⟨?_, ?_, ?_⟩
  · unfold jaccard
    rw [Finset.inter_comm, Finset.union_comm]
    exact if_congr and_comm rfl rfl
  · rintro ⟨rfl, rfl⟩; rfl
  · intro h
    rw [Finset.card_pos]
    rcases not_and_or.mp h with h | h
    · exact (Finset.nonempty_iff_ne_empty.mpr h).mono Finset.subset_union_left
    · exact (Finset.nonempty_iff_ne_empty.mpr h).mono Finset.subset_union_right

theorem C9_jaccard_total_symmetric_witness :
    jaccard ["TP53", "MYC"] ["MYC"] = jaccard ["MYC"] ["TP53", "MYC"] ∧
      jaccard [] [] = 0 ∧
      0 < ((["TP53", "MYC"].toFinset ∪ (["MYC"] : List String).toFinset)).card :=
  ⟨(C9_jaccard_total_symmetric _ _).1,
    (C9_jaccard_total_symmetric [] []).2.1 ⟨rfl, rfl⟩,
    (C9_jaccard_total_symmetric ["TP53", "MYC"] ["MYC"]).2.2 (by decide)⟩

/-! ### Claim C2 -/

/-- C2: a gene's association record is produced if and only if at least
5 paired non-missing observations survive the missing-value mask; with
fewer the gene is skipped and yields no record. -/
theorem C2_record_iff_five_pairs (stat : List (ℚ × ℚ) → ℚ × ℚ) (g : String)
    (x y : List (Option ℚ)) :
    (∃ rec, geneResult stat g x y = some rec) ↔ 5 ≤ (maskPairs x y).length := by
  rw [geneResult]
  by_cases h : (maskPairs x y).length < 5
  · simp only [if_pos h]
    constructor
    · rintro ⟨rec, hr⟩; cases hr
    · intro h5; omega
  · simp only [if_neg h]
    exact ⟨fun _ => by omega, fun _ => ⟨_, rfl⟩⟩

/-! ### Claim C7 -/

/-- C7: the cohort selector is deterministic and canonical: its result
is duplicate-free, sorted in the code-point string order, contains
exactly the identifiers present in all three sources, and is the unique
sorted arrangement of those identifiers (so two runs on identical
inputs cannot differ). -/
theorem C7_cohort_selector_canonical (crisprCols omicsIdx cancerModels : List String) :
    List.Sorted (fun a b => strLe a b = true) (common_models crisprCols omicsIdx cancerModels) ∧
      (common_models crisprCols omicsIdx cancerModels).Nodup ∧
      (∀ s, s ∈ common_models crisprCols omicsIdx cancerModels ↔
        s ∈ crisprCols ∧ s ∈ omicsIdx ∧ s ∈ cancerModels) ∧
      (∀ l, l.Perm (common_models crisprCols omicsIdx cancerModels) →
        List.Sorted (fun a b => strLe a b = true) l →
        l = common_models crisprCols omicsIdx cancerModels) := by
  refine ⟨List.sorted_insertionSort _ _, ?_, ?_, ?_⟩
  · exact ((List.perm_insertionSort _ _).nodup_iff).mpr
      (nodup_uniqueFirst _)
  · intro s
    rw [common_models, (List.perm_insertionSort _ _).mem_iff, mem_uniqueFirst, List.mem_filter]
    simp only [Bool.and_eq_true, decide_eq_true_eq]
  · intro l hp hs
    exact List.eq_of_perm_of_sorted hp hs (List.sorted_insertionSort _ _)

/-! ### Claim C6 -/

theorem filterMap_id_all_isSome : ∀ {l : List (Option ℚ)}, (∀ v ∈ l, v.isSome) →
    l.filterMap id = l.map (fun v => v.getD 0)
  | [], _ => rfl
  | none :: _, h => by simp at h
  | some a :: t, h => by
    simp only [List.filterMap_cons, List.map_cons, id, Option.getD_some]
    rw [filterMap_id_all_isSome (fun v hv => h v (List.mem_cons_of_mem _ hv))]

/-- C6: the immune proxy of a sample is the unweighted arithmetic mean
of the sample's expression values over exactly those columns whose name
contains some marker-panel string as a substring (so a column merely
containing a marker substring is included); stated for samples with no
missing values on the panel and a nonempty matched panel. -/
theorem C6_proxy_mean_of_substring_panel (cols : List String) (row : List (Option ℚ))
    (hne : immune_genes cols ≠ [])
    (hall : ∀ c ∈ immune_genes cols, (colVal cols row c).isSome = true) :
    (∀ c, c ∈ immune_genes cols ↔
        c ∈ cols ∧ ∃ m ∈ immune_markers, m.toList <:+: c.toList) ∧
      immune_proxy cols row =
        some ((((immune_genes cols).map (fun c => (colVal cols row c).getD 0)).sum) /
          ((immune_genes cols).length : ℚ)) := by
  constructor
  · intro c
    rw [immune_genes, List.mem_filter]
    simp only [List.any_eq_true, decide_eq_true_eq]
  · simp only [immune_proxy, nanmean]
    have hs : ∀ v ∈ (immune_genes cols).map (fun c => colVal cols row c), v.isSome := by
      intro v hv
      rcases List.mem_map.mp hv with ⟨c, hc, rfl⟩
      exact hall c hc
    rw [filterMap_id_all_isSome hs, List.map_map]
    have hlen : (((immune_genes cols).map (fun c => colVal cols row c)).map
        (fun v => v.getD 0)).length = (immune_genes cols).length := by
      rw [List.map_map, List.length_map]
    rw [List.map_map] at hlen
    rw [if_neg (by
      rw [hlen]
      intro h0
      exact hne (List.length_eq_zero.mp h0))]
    rw [qdiv_eq, qsum_eq, hlen]
    rfl

theorem C6_proxy_mean_of_substring_panel_witness :
    ((∀ c, c ∈ immune_genes ["B2M-AS1", "KRAS", "TAP1"] ↔
        c ∈ ["B2M-AS1", "KRAS", "TAP1"] ∧
          ∃ m ∈ immune_markers, m.toList <:+: c.toList) ∧
      immune_proxy ["B2M-AS1", "KRAS", "TAP1"] [some 2, some 5, some 4] =
        some ((((immune_genes ["B2M-AS1", "KRAS", "TAP1"]).map
          (fun c => (colVal ["B2M-AS1", "KRAS", "TAP1"] [some 2, some 5, some 4] c).getD 0)).sum) /
          ((immune_genes ["B2M-AS1", "KRAS", "TAP1"]).length : ℚ))) :=
  C6_proxy_mean_of_substring_panel _ _ (by decide) (by decide)

/-! ### Claim C1 -/

/-- C1: a cancer type whose cohort has fewer than 25 identifiers is
skipped with no output and no error (the step is a total function
returning `none`), while a cohort of at least 25 identifiers (in
particular exactly 25) proceeds to the normal analysis body. -/
theorem C1_cohort_size_guard (stat : List (ℚ × ℚ) → ℚ × ℚ) (crispr omics : Frame)
    (model : List (String × String)) (cancer : String) :
    ((cohortOf crispr omics model cancer).length < 25 →
      processCancer stat crispr omics model cancer = none) ∧
      (25 ≤ (cohortOf crispr omics model cancer).length →
        processCancer stat crispr omics model cancer =
          processBody stat crispr omics cancer (cohortOf crispr omics model cancer)) := by
  constructor
  · intro h; rw [processCancer, if_pos h]
  · intro h; rw [processCancer, if_neg (by omega)]

/-- Fixture sample identifiers for concrete runs. -/
def sampleIds (n : Nat) : List String := (List.range n).map (fun i => "S" ++ toString i)

/-- Fixture fitness matrix: one gene row over `n` samples. -/
def crisprFix (n : Nat) : Frame :=
  ⟨sampleIds n, [("G1", (List.range n).map (fun i => some ((i : ℚ))))]⟩

/-- Fixture expression matrix: one immune column over `n` samples. -/
def omicsFix (n : Nat) : Frame := ⟨["B2M"], (sampleIds n).map (fun s => (s, [some (1 : ℚ)]))⟩

/-- Fixture annotation: every fixture sample is labelled "Lung". -/
def modelFix (n : Nat) : List (String × String) := (sampleIds n).map (fun s => (s, "Lung"))

/-- Fixture statistic standing in for `spearmanr`. -/
def statFix : List (ℚ × ℚ) → ℚ × ℚ := fun _ => (0, 0)

theorem C1_cohort_size_guard_witness :
    processCancer statFix (crisprFix 24) (omicsFix 24) (modelFix 24) "lung" = none ∧
      processCancer statFix (crisprFix 25) (omicsFix 25) (modelFix 25) "lung" =
        processBody statFix (crisprFix 25) (omicsFix 25) "lung"
          (cohortOf (crisprFix 25) (omicsFix 25) (modelFix 25) "lung") :=
  ⟨(C1_cohort_size_guard statFix (crisprFix 24) (omicsFix 24) (modelFix 24) "lung").1
      (by decide),
    (C1_cohort_size_guard statFix (crisprFix 25) (omicsFix 25) (modelFix 25) "lung").2
      (by decide)⟩

/-! ### Length bookkeeping for the later claims -/

theorem length_multipletests_fdr_bh (ps : List ℚ) :
    (multipletests_fdr_bh ps).length = ps.length := by
  rw [multipletests_fdr_bh, List.length_map, List.length_range]

theorem length_attachFDR (rs : List Assoc) : (attachFDR rs).length = rs.length := by
  rw [attachFDR, List.length_zipWith, length_multipletests_fdr_bh, List.length_map,
    Nat.min_self]

theorem length_sortByFDR (rs : List AssocF) : (sortByFDR rs).length = rs.length :=
  List.length_insertionSort _ _

theorem length_sortByCoefDesc (rs : List AssocF) : (sortByCoefDesc rs).length = rs.length :=
  List.length_insertionSort _ _

theorem length_sortByCoefAsc (rs : List AssocF) : (sortByCoefAsc rs).length = rs.length :=
  List.length_insertionSort _ _

theorem length_topPosNames (rs : List AssocF) : (topPosNames rs).length = min 3 rs.length := by
  rw [topPosNames, List.length_map, List.length_take, length_sortByCoefDesc]

theorem length_topNegNames (rs : List AssocF) : (topNegNames rs).length = min 3 rs.length := by
  rw [topNegNames, List.length_map, List.length_take, length_sortByCoefAsc]

/-! ### Claim C10 -/

/-- C10: whenever a cancer type yields a summary row, at least one
association record exists, and each of the two top-gene fields is the
"; "-join of exactly `min 3 n` gene identifiers, where `n` is the
number of association records. -/
theorem C10_summary_row_topk (stat : List (ℚ × ℚ) → ℚ × ℚ) (crispr omics : Frame)
    (model : List (String × String)) (cancer : String)
    (recs : List AssocF) (summ : SummaryRow)
    (h : processCancer stat crispr omics model cancer = some (recs, summ)) :
    recs ≠ [] ∧
      ∃ l1 l2 : List String,
        summ.topPositive = String.intercalate "; " l1 ∧
          l1.length = min 3 recs.length ∧
          summ.topNegative = String.intercalate "; " l2 ∧
          l2.length = min 3 recs.length := by
  rw [processCancer] at h
  by_cases hg : (cohortOf crispr omics model cancer).length < 25
  · rw [if_pos hg] at h; cases h
  · rw [if_neg hg, processBody] at h
    by_cases he : (geneResults stat crispr omics (cohortOf crispr omics model cancer)).isEmpty
    · rw [if_pos he] at h; cases h
    · rw [if_neg he] at h
      have h' := Option.some.inj h
      rw [Prod.ext_iff] at h'
      obtain ⟨h1, h2⟩ := h'
      subst h1
      subst h2
      constructor
      · intro hnil
        have hlen := congrArg List.length hnil
        rw [length_sortByFDR, length_attachFDR, List.length_nil] at hlen
        rw [← List.isEmpty_iff_length_eq_zero] at hlen
        exact he hlen
      · refine ⟨topPosNames _, topNegNames _, rfl, ?_, rfl, ?_⟩
        · rw [length_topPosNames]
        · rw [length_topNegNames]

theorem C10_summary_row_topk_witness :
    ([(⟨"G1", 0, 0, 0⟩ : AssocF)] ≠ []) ∧
      ∃ l1 l2 : List String,
        (SummaryRow.mk "lung" 25 "G1" "G1").topPositive = String.intercalate "; " l1 ∧
          l1.length = min 3 [(⟨"G1", 0, 0, 0⟩ : AssocF)].length ∧
          (SummaryRow.mk "lung" 25 "G1" "G1").topNegative = String.intercalate "; " l2 ∧
          l2.length = min 3 [(⟨"G1", 0, 0, 0⟩ : AssocF)].length :=
  C10_summary_row_topk statFix (crisprFix 25) (omicsFix 25) (modelFix 25) "lung"
    [⟨"G1", 0, 0, 0⟩] ⟨"lung", 25, "G1", "G1"⟩ (by decide)

/-! ### Claim C5 -/

instance : IsTotal AssocF (fun a b => a.fdr ≤ b.fdr) := ⟨fun _ _ => le_total _ _⟩

instance : IsTrans AssocF (fun a b => a.fdr ≤ b.fdr) := ⟨fun _ _ _ => le_trans⟩

instance : IsTotal AssocF (fun a b => b.r ≤ a.r) := ⟨fun _ _ => le_total _ _⟩

instance : IsTrans AssocF (fun a b => b.r ≤ a.r) := ⟨fun _ _ _ h1 h2 => le_trans h2 h1⟩

instance : IsTotal AssocF (fun a b => a.r ≤ b.r) := ⟨fun _ _ => le_total _ _⟩

instance : IsTrans AssocF (fun a b => a.r ≤ b.r) := ⟨fun _ _ _ => le_trans⟩

/-- C5: the persisted table is a permutation of the records sorted
ascending by adjusted p-value, and the top positive (negative) genes
are the first 3 identifiers of a descending (ascending) arrangement by
raw coefficient. -/
theorem C5_persist_sort_and_topk (rs : List AssocF) :
    ((sortByFDR rs).Perm rs ∧
        List.Sorted (fun a b => a.fdr ≤ b.fdr) (sortByFDR rs)) ∧
      (∃ l, l.Perm rs ∧ List.Sorted (fun a b => b.r ≤ a.r) l ∧
        topPosNames rs = (l.take 3).map AssocF.gene) ∧
      (∃ l, l.Perm rs ∧ List.Sorted (fun a b => a.r ≤ b.r) l ∧
        topNegNames rs = (l.take 3).map AssocF.gene) := by
  refine ⟨⟨List.perm_insertionSort _ _, List.sorted_insertionSort _ _⟩, ?_, ?_⟩
  · exact ⟨sortByCoefDesc rs, List.perm_insertionSort _ _,
      List.sorted_insertionSort _ _, rfl⟩
  · exact ⟨sortByCoefAsc rs, List.perm_insertionSort _ _,
      List.sorted_insertionSort _ _, rfl⟩

/-! ### Claim C4 -/

theorem attachFDR_zip_fst : ∀ (rs : List Assoc) (qs : List ℚ), rs.length = qs.length →
    (List.zipWith (fun a q => AssocF.mk a.gene a.r a.p q) rs qs).map
        (fun a => (a.gene, a.r, a.p)) =
      rs.map (fun a => (a.gene, a.r, a.p))
  | [], _, _ => rfl
  | _ :: _, [], h => by simp at h
  | a :: t, q :: qs, h => by
    simp only [List.zipWith_cons_cons, List.map_cons]
    rw [attachFDR_zip_fst t qs (by simpa using h)]

theorem attachFDR_zip_snd : ∀ (rs : List Assoc) (qs : List ℚ), rs.length = qs.length →
    (List.zipWith (fun a q => AssocF.mk a.gene a.r a.p q) rs qs).map AssocF.fdr = qs
  | [], [], _ => rfl
  | [], _ :: _, h => by simp at h
  | _ :: _, [], h => by simp at h
  | a :: t, q :: qs, h => by
    simp only [List.zipWith_cons_cons, List.map_cons]
    rw [attachFDR_zip_snd t qs (by simpa using h)]

/-- C4: the Benjamini-Hochberg corrector is a pure, length-preserving
transform of one cancer type's raw p-value list, attached positionally
(record order, genes, coefficients and raw p-values are unchanged, and
the i-th adjusted value corresponds to the i-th raw p-value), and the
pipeline applies it once per cancer type with no pooling across cancer
types (processing a list of cancer types decomposes into independent
per-type runs). -/
theorem C4_bh_pure_positional_per_cancer (ps : List ℚ) (rs : List Assoc)
    (stat : List (ℚ × ℚ) → ℚ × ℚ) (crispr omics : Frame)
    (model : List (String × String)) (cs1 cs2 : List String) :
    (multipletests_fdr_bh ps).length = ps.length ∧
      (attachFDR rs).map (fun a => (a.gene, a.r, a.p)) =
        rs.map (fun a => (a.gene, a.r, a.p)) ∧
      (attachFDR rs).map AssocF.fdr = multipletests_fdr_bh (rs.map Assoc.p) ∧
      runPipeline stat crispr omics model (cs1 ++ cs2) =
        runPipeline stat crispr omics model cs1 ++ runPipeline stat crispr omics model cs2 := by
  refine ⟨length_multipletests_fdr_bh ps, ?_, ?_, ?_⟩
  · exact attachFDR_zip_fst rs _ (by rw [length_multipletests_fdr_bh, List.length_map])
  · exact attachFDR_zip_snd rs _ (by rw [length_multipletests_fdr_bh, List.length_map])
  · rw [runPipeline, runPipeline, runPipeline, List.map_append]

/-! ### Claim C8 -/

/-- A 30-sample fitness vector with no missing values. -/
def fit30 : List ℚ := (List.range 30).map (fun i => (i : ℚ))

/-- The matching immune-proxy vector, strictly decreasing where `fit30`
is strictly increasing: a perfect anti-correlation. -/
def proxy30 : List ℚ := (List.range 30).map (fun i => ((29 - (i : Int) : Int) : ℚ))

/-- C8: for a 30-sample cohort where the gene's fitness vector is a
strictly decreasing function of the immune proxy (strictly increasing
while the proxy strictly decreases, no missing values), the Spearman
coefficient equals -1 (negative numerator with squared Cauchy-Schwarz
equality, the exact rational form of `ρ = -1`), and the two-sided
p-value is 0 by the degenerate `ρ² = 1` case of scipy's t statistic. -/
theorem C8_perfect_anticorrelation_rho_neg_one :
    fit30.length = 30 ∧ proxy30.length = 30 ∧
      List.Pairwise (fun a b : ℚ => a < b) fit30 ∧
      List.Pairwise (fun a b : ℚ => b < a) proxy30 ∧
      spearman_rho_eq_negOne fit30 proxy30 ∧
      spearman_pval_degenerate fit30 proxy30 = some 0 := by
  set_option maxRecDepth 4000 in decide

/-! ### Claim C3: structure of the BH suffix minima -/

theorem suffixMin_length : ∀ l : List ℚ, (suffixMin l).length = l.length
  | [] => rfl
  | [_] => rfl
  | _ :: b :: t => by
    rw [suffixMin, List.length_cons, suffixMin_length (b :: t)]
    simp [List.length_cons]

theorem suffixMin_headD : ∀ (a : ℚ) (t : List ℚ),
    (suffixMin (a :: t)).headD 0 = (suffixMin (a :: t)).getD 0 0
  | _, [] => rfl
  | _, _ :: _ => rfl

theorem suffixMin_getD_succ : ∀ (l : List ℚ) (k : ℕ), k + 1 < l.length →
    (suffixMin l).getD k 0 = min (l.getD k 0) ((suffixMin l).getD (k + 1) 0)
  | [], _, h => by simp at h
  | [_], _, h => by simp at h
  | a :: b :: t, 0, _ => by
    rw [suffixMin, List.getD_cons_zero, List.getD_cons_succ, List.getD_cons_zero,
      suffixMin_headD]
  | a :: b :: t, k + 1, h => by
    rw [suffixMin, List.getD_cons_succ, List.getD_cons_succ, List.getD_cons_succ]
    exact suffixMin_getD_succ (b :: t) k (by simpa using h)

theorem suffixMin_getD_last : ∀ (l : List ℚ) (k : ℕ), k + 1 = l.length →
    (suffixMin l).getD k 0 = l.getD k 0
  | [], _, h => by simp at h
  | [_], 0, _ => rfl
  | [_], _ + 1, h => by simp at h
  | _ :: _ :: t, 0, h => by
    exfalso
    simp only [List.length_cons] at h
    omega
  | a :: b :: t, k + 1, h => by
    rw [suffixMin, List.getD_cons_succ, List.getD_cons_succ]
    exact suffixMin_getD_last (b :: t) k (by simpa using h)

theorem suffixMin_getD_le (l : List ℚ) (k : ℕ) (h : k < l.length) :
    (suffixMin l).getD k 0 ≤ l.getD k 0 := by
  rcases Nat.lt_or_ge (k + 1) l.length with h1 | h1
  · rw [suffixMin_getD_succ l k h1]; exact min_le_left _ _
  · rw [suffixMin_getD_last l k (by omega)]

theorem suffixMin_getD_step (l : List ℚ) (k : ℕ) (h : k + 1 < l.length) :
    (suffixMin l).getD k 0 ≤ (suffixMin l).getD (k + 1) 0 := by
  rw [suffixMin_getD_succ l k h]; exact min_le_right _ _

theorem suffixMin_getD_mono (l : List ℚ) (i : ℕ) :
    ∀ j, i ≤ j → j < l.length → (suffixMin l).getD i 0 ≤ (suffixMin l).getD j 0 := by
  intro j
  induction j with
  | zero =>
    intro hij _
    have h0 : i = 0 := Nat.le_zero.mp hij
    subst h0
    exact le_refl _
  | succ j ih =>
    intro hij hj
    rcases Nat.lt_or_ge i (j + 1) with h | h
    · exact le_trans (ih (by omega) (by omega)) (suffixMin_getD_step l j hj)
    · have he : i = j + 1 := by omega
      subst he
      exact le_refl _

/-! ### Claim C3: the argsort step -/

instance : IsTotal (ℕ × ℚ) (fun u v => u.2 ≤ v.2) := ⟨fun _ _ => le_total _ _⟩

instance : IsTrans (ℕ × ℚ) (fun u v => u.2 ≤ v.2) := ⟨fun _ _ _ => le_trans⟩

/-- Sorted position ("rank") of original position `i` in the argsort. -/
def bhRank (ps : List ℚ) (i : ℕ) : ℕ := List.indexOf i ((bhArgsorted ps).map Prod.fst)

theorem bhArgsorted_length (ps : List ℚ) : (bhArgsorted ps).length = ps.length := by
  rw [bhArgsorted, List.length_insertionSort, List.length_map, List.length_range]

theorem mem_bhArgsorted (ps : List ℚ) (pr : ℕ × ℚ) :
    pr ∈ bhArgsorted ps ↔ pr.1 < ps.length ∧ pr.2 = ps.getD pr.1 0 := by
  rw [bhArgsorted, (List.perm_insertionSort _ _).mem_iff, List.mem_map]
  constructor
  · rintro ⟨i, hi, rfl⟩
    exact ⟨List.mem_range.mp hi, rfl⟩
  · rintro ⟨h1, h2⟩
    refine ⟨pr.1, List.mem_range.mpr h1, ?_⟩
    cases pr
    simp only at h2
    rw [h2]

theorem bhArgsorted_sorted (ps : List ℚ) :
    List.Pairwise (fun u v : ℕ × ℚ => u.2 ≤ v.2) (bhArgsorted ps) :=
  List.sorted_insertionSort _ _

theorem bhArgsorted_snd_mono (ps : List ℚ) (a b : ℕ) (hab : a ≤ b)
    (hb : b < (bhArgsorted ps).length) :
    ((bhArgsorted ps).getD a (0, 0)).2 ≤ ((bhArgsorted ps).getD b (0, 0)).2 := by
  rcases Nat.eq_or_lt_of_le hab with rfl | hab
  · exact le_refl _
  · have ha : a < (bhArgsorted ps).length := lt_trans hab hb
    rw [List.getD_eq_getElem _ _ ha, List.getD_eq_getElem _ _ hb]
    exact (List.pairwise_iff_getElem.mp (bhArgsorted_sorted ps)) a b ha hb hab

theorem bhRank_lt (ps : List ℚ) (i : ℕ) (hi : i < ps.length) :
    bhRank ps i < (bhArgsorted ps).length := by
  have hmem : i ∈ (bhArgsorted ps).map Prod.fst := by
    rw [List.mem_map]
    refine ⟨(i, ps.getD i 0), ?_, rfl⟩
    rw [mem_bhArgsorted]
    exact ⟨hi, rfl⟩
  have h := List.indexOf_lt_length.mpr hmem
  rwa [List.length_map] at h

theorem bhArgsorted_getD_rank (ps : List ℚ) (i : ℕ) (hi : i < ps.length) :
    (bhArgsorted ps).getD (bhRank ps i) (0, 0) = (i, ps.getD i 0) := by
  have hmem : i ∈ (bhArgsorted ps).map Prod.fst := by
    rw [List.mem_map]
    refine ⟨(i, ps.getD i 0), ?_, rfl⟩
    rw [mem_bhArgsorted]
    exact ⟨hi, rfl⟩
  have hlt : bhRank ps i < ((bhArgsorted ps).map Prod.fst).length :=
    List.indexOf_lt_length.mpr hmem
  have hfst : ((bhArgsorted ps).map Prod.fst)[bhRank ps i] = i := List.getElem_indexOf hlt
  have hlt2 : bhRank ps i < (bhArgsorted ps).length := by
    rwa [List.length_map] at hlt
  rw [List.getElem_map] at hfst
  have hmem2 := List.getElem_mem hlt2
  rw [mem_bhArgsorted] at hmem2
  rw [List.getD_eq_getElem _ _ hlt2]
  have hsnd := hmem2.2
  rw [hfst] at hsnd
  exact Prod.ext hfst hsnd

/-! ### Claim C3: the raw BH quotients -/

theorem bhRaws_length (ps : List ℚ) : (bhRaws ps).length = (bhArgsorted ps).length := by
  rw [bhRaws, List.length_zipWith, List.length_range, Nat.min_self]

theorem bhRaws_getD (ps : List ℚ) (k : ℕ) (hk : k < (bhArgsorted ps).length) :
    (bhRaws ps).getD k 0 =
      qdiv (qmul ((bhArgsorted ps).getD k (0, 0)).2 (ps.length : ℚ)) ((k + 1 : ℕ) : ℚ) := by
  have hk2 : k < (bhRaws ps).length := by rw [bhRaws_length]; exact hk
  rw [List.getD_eq_getElem _ _ hk2, List.getD_eq_getElem _ _ hk]
  have hk3 : k < (List.zipWith
      (fun (k : ℕ) (pr : ℕ × ℚ) => qdiv (qmul pr.2 (ps.length : ℚ)) ((k + 1 : ℕ) : ℚ))
      (List.range (bhArgsorted ps).length) (bhArgsorted ps)).length := by
    rw [← bhRaws]; exact hk2
  show (List.zipWith _ _ _)[k] = _
  rw [List.getElem_zipWith, List.getElem_range]

theorem bhArgsorted_snd_nonneg (ps : List ℚ) (hpos : ∀ p ∈ ps, 0 ≤ p) (k : ℕ)
    (hk : k < (bhArgsorted ps).length) : 0 ≤ ((bhArgsorted ps).getD k (0, 0)).2 := by
  rw [List.getD_eq_getElem _ _ hk]
  have hm := List.getElem_mem hk
  rw [mem_bhArgsorted] at hm
  rw [hm.2, List.getD_eq_getElem _ _ hm.1]
  exact hpos _ (List.getElem_mem hm.1)

theorem bhRaws_tie_ge (ps : List ℚ) (hpos : ∀ p ∈ ps, 0 ≤ p) (a b : ℕ) (hab : a ≤ b)
    (hb : b < (bhArgsorted ps).length)
    (heq : ((bhArgsorted ps).getD a (0, 0)).2 = ((bhArgsorted ps).getD b (0, 0)).2) :
    (bhRaws ps).getD b 0 ≤ (bhRaws ps).getD a 0 := by
  have ha : a < (bhArgsorted ps).length := lt_of_le_of_lt hab hb
  rw [bhRaws_getD ps b hb, bhRaws_getD ps a ha, ← heq]
  rw [qdiv_eq, qdiv_eq, qmul_eq]
  apply div_le_div_of_nonneg_left
  · exact mul_nonneg (bhArgsorted_snd_nonneg ps hpos a ha) (by positivity)
  · exact_mod_cast Nat.succ_pos a
  · exact_mod_cast Nat.succ_le_succ hab

/-! ### Claim C3: ties receive equal adjusted values -/

theorem bhSm_tie (ps : List ℚ) (hpos : ∀ p ∈ ps, 0 ≤ p) :
    ∀ (d a b : ℕ), b = a + d → b < (bhArgsorted ps).length →
      ((bhArgsorted ps).getD a (0, 0)).2 = ((bhArgsorted ps).getD b (0, 0)).2 →
      (suffixMin (bhRaws ps)).getD a 0 = (suffixMin (bhRaws ps)).getD b 0 := by
  intro d
  induction d with
  | zero =>
    intro a b hba _ _
    subst hba
    rfl
  | succ d ih =>
    intro a b hba hb heq
    have hab : a < b := by omega
    have ha1 : a + 1 ≤ b := by omega
    have hlen : b < (bhRaws ps).length := by rw [bhRaws_length]; exact hb
    have ha1len : a + 1 < (bhRaws ps).length := by omega
    -- the value at a+1 is sandwiched between the equal values at a and b
    have hva : ((bhArgsorted ps).getD a (0, 0)).2 ≤ ((bhArgsorted ps).getD (a + 1) (0, 0)).2 :=
      bhArgsorted_snd_mono ps a (a + 1) (by omega) (by omega)
    have hvb : ((bhArgsorted ps).getD (a + 1) (0, 0)).2 ≤ ((bhArgsorted ps).getD b (0, 0)).2 :=
      bhArgsorted_snd_mono ps (a + 1) b ha1 hb
    have heq1 : ((bhArgsorted ps).getD (a + 1) (0, 0)).2 = ((bhArgsorted ps).getD b (0, 0)).2 :=
      le_antisymm hvb (heq ▸ hva)
    -- the suffix minimum does not move from a to a+1
    have hstep : (suffixMin (bhRaws ps)).getD a 0 = (suffixMin (bhRaws ps)).getD (a + 1) 0 := by
      rw [suffixMin_getD_succ (bhRaws ps) a ha1len]
      refine min_eq_right ?_
      have h1 : (suffixMin (bhRaws ps)).getD (a + 1) 0 ≤ (suffixMin (bhRaws ps)).getD b 0 :=
        suffixMin_getD_mono (bhRaws ps) (a + 1) b ha1 hlen
      have h2 : (suffixMin (bhRaws ps)).getD b 0 ≤ (bhRaws ps).getD b 0 :=
        suffixMin_getD_le (bhRaws ps) b hlen
      have h3 : (bhRaws ps).getD b 0 ≤ (bhRaws ps).getD a 0 :=
        bhRaws_tie_ge ps hpos a b (le_of_lt hab) hb heq
      exact le_trans h1 (le_trans h2 h3)
    rw [hstep]
    exact ih (a + 1) b (by omega) hb heq1

/-! ### Claim C3: the clipped adjusted values -/

theorem bhAdjSorted_length (ps : List ℚ) :
    (bhAdjSorted ps).length = (bhArgsorted ps).length := by
  rw [bhAdjSorted, List.length_map, suffixMin_length, bhRaws_length]

theorem bhAdjSorted_getD (ps : List ℚ) (k : ℕ) (hk : k < (bhArgsorted ps).length) :
    (bhAdjSorted ps).getD k 0 = min ((suffixMin (bhRaws ps)).getD k 0) 1 := by
  have hk2 : k < (bhAdjSorted ps).length := by rw [bhAdjSorted_length]; exact hk
  have hk3 : k < (suffixMin (bhRaws ps)).length := by
    rw [suffixMin_length, bhRaws_length]; exact hk
  rw [List.getD_eq_getElem _ _ hk2, List.getD_eq_getElem _ _ hk3]
  simp only [bhAdjSorted, List.getElem_map]

theorem bhAdjSorted_mono (ps : List ℚ) (a b : ℕ) (hab : a ≤ b)
    (hb : b < (bhArgsorted ps).length) :
    (bhAdjSorted ps).getD a 0 ≤ (bhAdjSorted ps).getD b 0 := by
  have ha : a < (bhArgsorted ps).length := by omega
  rw [bhAdjSorted_getD ps a ha, bhAdjSorted_getD ps b hb]
  refine min_le_min ?_ (le_refl _)
  exact suffixMin_getD_mono (bhRaws ps) a b hab (by rw [bhRaws_length]; exact hb)

theorem multipletests_fdr_bh_getD (ps : List ℚ) (i : ℕ) (hi : i < ps.length) :
    (multipletests_fdr_bh ps).getD i 0 = (bhAdjSorted ps).getD (bhRank ps i) 0 := by
  rw [multipletests_fdr_bh]
  have hi2 : i < ((List.range ps.length).map
      (fun i => (bhAdjSorted ps).getD (List.indexOf i ((bhArgsorted ps).map Prod.fst)) 0)).length := by
    rw [List.length_map, List.length_range]; exact hi
  rw [List.getD_eq_getElem _ _ hi2, List.getElem_map, List.getElem_range, bhRank]

/-- C3: the adjusted p-values produced by the Benjamini-Hochberg
correction are monotone with respect to the raw p-values: whenever one
record's raw p-value is at most another's, its adjusted value is at
most the other's.  Hence, sorting the records ascending by raw p-value
yields a monotonically non-decreasing sequence of adjusted values.
(Raw p-values are nonnegative; for negative inputs, which cannot occur
as p-values, BH ties would break the property.) -/
theorem C3_bh_adjusted_monotone_in_raw_p (ps : List ℚ) (hpos : ∀ p ∈ ps, 0 ≤ p)
    (i j : ℕ) (hi : i < ps.length) (hj : j < ps.length)
    (hij : ps.getD i 0 ≤ ps.getD j 0) :
    (multipletests_fdr_bh ps).getD i 0 ≤ (multipletests_fdr_bh ps).getD j 0 := by
  rw [multipletests_fdr_bh_getD ps i hi, multipletests_fdr_bh_getD ps j hj]
  have ha : bhRank ps i < (bhArgsorted ps).length := bhRank_lt ps i hi
  have hb : bhRank ps j < (bhArgsorted ps).length := bhRank_lt ps j hj
  have hva : ((bhArgsorted ps).getD (bhRank ps i) (0, 0)).2 = ps.getD i 0 := by
    rw [bhArgsorted_getD_rank ps i hi]
  have hvb : ((bhArgsorted ps).getD (bhRank ps j) (0, 0)).2 = ps.getD j 0 := by
    rw [bhArgsorted_getD_rank ps j hj]
  rcases le_or_lt (bhRank ps i) (bhRank ps j) with hab | hab
  · exact bhAdjSorted_mono ps _ _ hab hb
  · -- the rank of j is smaller although its p-value is at least that of i:
    -- the two p-values are equal and the tie lemma applies
    have h1 : ps.getD j 0 ≤ ps.getD i 0 := by
      rw [← hva, ← hvb]
      exact bhArgsorted_snd_mono ps _ _ (le_of_lt hab) ha
    have heq : ((bhArgsorted ps).getD (bhRank ps j) (0, 0)).2 =
        ((bhArgsorted ps).getD (bhRank ps i) (0, 0)).2 := by
      rw [hva, hvb]
      exact le_antisymm hij h1 |>.symm
    have hsm := bhSm_tie ps hpos (bhRank ps i - bhRank ps j) (bhRank ps j) (bhRank ps i)
      (by omega) ha heq
    rw [bhAdjSorted_getD ps _ ha, bhAdjSorted_getD ps _ hb, hsm]

theorem C3_bh_adjusted_monotone_in_raw_p_witness :
    (∀ p ∈ [qdiv 1 2, qdiv 1 50, qdiv 9 10], 0 ≤ p) ∧
      (0 : ℕ) < ([qdiv 1 2, qdiv 1 50, qdiv 9 10] : List ℚ).length ∧
      (2 : ℕ) < ([qdiv 1 2, qdiv 1 50, qdiv 9 10] : List ℚ).length ∧
      ([qdiv 1 2, qdiv 1 50, qdiv 9 10] : List ℚ).getD 0 0 ≤
        ([qdiv 1 2, qdiv 1 50, qdiv 9 10] : List ℚ).getD 2 0 ∧
      (multipletests_fdr_bh [qdiv 1 2, qdiv 1 50, qdiv 9 10]).getD 0 0 ≤
        (multipletests_fdr_bh [qdiv 1 2, qdiv 1 50, qdiv 9 10]).getD 2 0 :=
  ⟨by decide, by decide, by decide, by decide,
    C3_bh_adjusted_monotone_in_raw_p [qdiv 1 2, qdiv 1 50, qdiv 9 10] (by decide) 0 2
      (by decide) (by decide) (by decide)⟩

end DepMap
